import Mathlib

/-!
Verification of the bomb-detonation engine of the bomb-detonation-simulator
repository (src/bombs.py, src/terrain.py, src/position.py).

The Python source is shallowly embedded: `Position`, `Direction`, `Token`,
`Terrain` mirror position.py / terrain.py, the tables `DIRECTION_TO_BIT`
and `flame_tokens` and the nested functions `add_flame`, `_propagate`,
`_detonate`, `detonate` of src/bombs.py are translated one-to-one.
Python's raised exceptions (TerrainError on an out-of-bounds read) are
modelled with `Option` / an explicit `err` result; the unbounded Python
recursion is modelled with a fuel parameter that decreases on every call
(`outOfFuel` marks fuel exhaustion, which the termination theorem rules
out for a sufficiently large fuel).  The change-set dictionary is
modelled as an insertion-ordered association list with unique keys,
matching Python's dict semantics (update-in-place keeps the position of
an existing key, a new key is appended at the end).
-/

/-- Mirrors `Direction` of src/position.py (NONE, UP, RIGHT, DOWN, LEFT). -/
inductive Direction where
  | none
  | up
  | right
  | down
  | left
deriving DecidableEq, Repr

/-- Mirrors `Direction.opposite` of src/position.py. -/
def Direction.opposite : Direction → Direction
  | .up => .down
  | .down => .up
  | .right => .left
  | .left => .right
  | .none => .none

/-- Mirrors `Position` of src/position.py: a pair of Python ints. -/
structure Position where
  x : Int
  y : Int
deriving DecidableEq, Repr

/-- Mirrors `Position.get_new_position_from` of src/position.py.
The source raises `InvalidDirectionError` for NONE; the detonation engine
never steps with NONE, so that branch is modelled as the identity. -/
def Position.get_new_position_from (p : Position) (d : Direction) : Position :=
  match d with
  | .up => ⟨p.x, p.y - 1⟩
  | .right => ⟨p.x + 1, p.y⟩
  | .down => ⟨p.x, p.y + 1⟩
  | .left => ⟨p.x - 1, p.y⟩
  | .none => p

/-- Mirrors `Token` of src/terrain.py: compared by its display character. -/
structure Token where
  value : Char
deriving DecidableEq, Repr

def Token.EMPTY : Token := ⟨' '⟩
def Token.WALL : Token := ⟨'#'⟩
def Token.BOMB : Token := ⟨'ό'⟩

/-- Mirrors `Token.FLAMES` of src/terrain.py: the 15 flame glyphs. -/
def Token.FLAMES : List Token :=
  [⟨'╴'⟩, ⟨'╶'⟩, ⟨'─'⟩, ⟨'╵'⟩, ⟨'┘'⟩, ⟨'└'⟩, ⟨'┴'⟩, ⟨'╷'⟩,
   ⟨'┐'⟩, ⟨'┌'⟩, ⟨'┬'⟩, ⟨'│'⟩, ⟨'┤'⟩, ⟨'├'⟩, ⟨'┼'⟩]

/-- Mirrors the `Terrain` grid of src/terrain.py: a width × height grid
stored as a flat row-major list of tokens. -/
structure Terrain where
  width : Nat
  height : Nat
  cells : List Token
deriving DecidableEq, Repr

/-- Well-formedness of a grid as established by the `Terrain` constructor:
the flat cell list has exactly width * height entries. -/
def Terrain.WF (t : Terrain) : Prop :=
  t.cells.length = t.width * t.height

/-- Mirrors `Terrain.is_valid_position` of src/terrain.py. -/
def Terrain.is_valid_position (t : Terrain) (pos : Position) : Bool :=
  if pos.x < 0 ∨ pos.x ≥ (t.width : Int) ∨ pos.y < 0 ∨ pos.y ≥ (t.height : Int) then
    false
  else
    true

/-- Mirrors `Terrain._loc_to_index` of src/terrain.py: `none` models the
raised `TerrainError` for an invalid position. -/
def Terrain.loc_to_index (t : Terrain) (pos : Position) : Option Nat :=
  if t.is_valid_position pos then some (pos.y * (t.width : Int) + pos.x).toNat
  else none

/-- Mirrors `Terrain.get_token` of src/terrain.py: `none` models the raised
exception (TerrainError for an invalid position, or an index past the end
of the flat list, which cannot happen on a well-formed grid). -/
def Terrain.get_token (t : Terrain) (pos : Position) : Option Token :=
  match t.loc_to_index pos with
  | some i => t.cells.get? i
  | none => none

/-- One cell write of `Terrain.update` (the body of its loop). -/
def Terrain.set_cell (t : Terrain) (pos : Position) (tok : Token) : Terrain :=
  { t with cells := t.cells.set (pos.y * (t.width : Int) + pos.x).toNat tok }

/-- Mirrors `Terrain.update` of src/terrain.py: writes every changed
position in insertion order; `none` models the TerrainError raised by
`_loc_to_index` on an invalid key. -/
def Terrain.update : Terrain → List (Position × Token) → Option Terrain
  | t, [] => some t
  | t, (pos, tok) :: rest =>
    if t.is_valid_position pos then (t.set_cell pos tok).update rest
    else none

/-- Mirrors `BOMB_SIZE = 3` of src/bombs.py. -/
def BOMB_SIZE : Nat := 3

/-- Mirrors `DIRECTION_TO_BIT` of src/bombs.py (DOWN 8, UP 4, RIGHT 2,
LEFT 1).  The source dict has no NONE key (indexing with NONE would raise
KeyError); the engine never merges NONE, so that branch yields 0. -/
def DIRECTION_TO_BIT : Direction → Nat
  | .down => 8
  | .up => 4
  | .right => 2
  | .left => 1
  | .none => 0

/-- Mirrors the `flame_tokens` dict of src/bombs.py, in insertion order. -/
def flame_tokens : List (Nat × Token) :=
  [(0, ⟨' '⟩), (1, ⟨'╴'⟩), (2, ⟨'╶'⟩), (3, ⟨'─'⟩),
   (4, ⟨'╵'⟩), (5, ⟨'┘'⟩), (6, ⟨'└'⟩), (7, ⟨'┴'⟩),
   (8, ⟨'╷'⟩), (9, ⟨'┐'⟩), (10, ⟨'┌'⟩), (11, ⟨'┬'⟩),
   (12, ⟨'│'⟩), (13, ⟨'┤'⟩), (14, ⟨'├'⟩), (15, ⟨'┼'⟩)]

/-- The change-set accumulated by a detonation: a Python dict from
Position to Token, as an insertion-ordered association list. -/
abbrev Changes : Type := List (Position × Token)

/-- Key membership / `changes[position]` read of the Python dict:
value of the first (and, invariantly, only) entry with this key. -/
def lookupTok : Changes → Position → Option Token
  | [], _ => Option.none
  | (q, tok) :: rest, p => if q = p then some tok else lookupTok rest p

/-- `changes[position] = token` on the Python dict: updates an existing
key in place, appends a missing key at the end. -/
def setTok : Changes → Position → Token → Changes
  | [], p, tok => [(p, tok)]
  | (q, t) :: rest, p, tok =>
    if q = p then (q, tok) :: rest else (q, t) :: setTok rest p tok

/-- The keys of a change-set. -/
def keysOf (c : Changes) : List Position :=
  c.map Prod.fst

/-- The dict lookup `flame_tokens[mask]` of src/bombs.py.  The source
would raise KeyError for a mask outside 0..15; `add_flame` only ever
builds masks in that range, so the fallback branch is unreachable. -/
def flameTokOf (mask : Nat) : Token :=
  match flame_tokens.find? (fun mt => mt.1 = mask) with
  | some mt => mt.2
  | Option.none => Token.EMPTY

/-- The reverse scan of `add_flame` in src/bombs.py: the first mask in
`flame_tokens` whose token equals the cell's current entry, else 0. -/
def revMask (tok : Token) : Nat :=
  match flame_tokens.find? (fun mt => mt.2 = tok) with
  | some mt => mt.1
  | Option.none => 0

/-- Mirrors the nested `add_flame` of src/bombs.py: merge the given
directions into the flame mask recorded for `position` in the change-set
(ignoring invalid positions), and store the merged glyph. -/
def add_flame (t : Terrain) (changes : Changes) (position : Position)
    (directions : List Direction) : Changes :=
  if t.is_valid_position position then
    let existing_mask : Nat :=
      match lookupTok changes position with
      | some cur => revMask cur
      | Option.none => 0
    let merged := directions.foldl (fun m d => m ||| DIRECTION_TO_BIT d) existing_mask
    setTok changes position (flameTokOf merged)
  else changes

/-- Result of a detonation step: the accumulated change-set, a raised
TerrainError (`err`), or exhaustion of the embedding's fuel. -/
inductive DetResult where
  | ok (changes : Changes)
  | err
  | outOfFuel
deriving DecidableEq, Repr

mutual

/-- Mirrors the nested `_propagate` of src/bombs.py: continue one
direction of the blast outward, one cell per step. -/
def propagate (fuel : Nat) (t : Terrain) (current : Position)
    (incoming : Direction) (remaining_steps : Nat) (changes : Changes) : DetResult :=
  if remaining_steps = 0 then .ok changes
  else
    match fuel with
    | 0 => .outOfFuel
    | f + 1 =>
      match t.get_token current with
      | Option.none => .err
      | some token =>
        if token = Token.WALL then .ok (setTok changes current Token.EMPTY)
        else if token = Token.BOMB ∧ lookupTok changes current = Option.none then
          detonateAux f t current changes
        else
          let directions :=
            if remaining_steps = 1 then [incoming.opposite]
            else [incoming, incoming.opposite]
          let c1 := add_flame t changes current directions
          let next := current.get_new_position_from incoming
          if t.is_valid_position next then
            propagate f t next incoming (remaining_steps - 1) c1
          else .ok c1
termination_by structural fuel

/-- Mirrors the nested `_detonate` of src/bombs.py: flame the center in
all four directions, then propagate outward in each direction in order
UP, DOWN, LEFT, RIGHT. -/
def detonateAux (fuel : Nat) (t : Terrain) (center : Position)
    (changes : Changes) : DetResult :=
  match fuel with
  | 0 => .outOfFuel
  | f + 1 =>
    let c0 := add_flame t changes center
      [Direction.up, Direction.down, Direction.left, Direction.right]
    match oneDir f t center Direction.up c0 with
    | .ok c1 =>
      match oneDir f t center Direction.down c1 with
      | .ok c2 =>
        match oneDir f t center Direction.left c2 with
        | .ok c3 => oneDir f t center Direction.right c3
        | r => r
      | r => r
    | r => r
termination_by structural fuel

/-- One iteration of `_detonate`'s direction loop in src/bombs.py:
start `_propagate` at the adjacent cell when it is on the grid. -/
def oneDir (fuel : Nat) (t : Terrain) (center : Position) (d : Direction)
    (changes : Changes) : DetResult :=
  match fuel with
  | 0 => .outOfFuel
  | f + 1 =>
    let next := center.get_new_position_from d
    if t.is_valid_position next then propagate f t next d BOMB_SIZE changes
    else .ok changes
termination_by structural fuel

end

/-- Mirrors the top-level `detonate` of src/bombs.py: read the starting
cell (an unguarded read: `err` for an off-grid start), detonate when it
holds the bomb marker, and return the accumulated change-set. -/
def detonate (fuel : Nat) (t : Terrain) (pos : Position) : DetResult :=
  match t.get_token pos with
  | Option.none => .err
  | some tok => if tok = Token.BOMB then detonateAux fuel t pos [] else .ok []

/-- The union of the direction bits of a list of directions (starting
from mask 0), as accumulated by `add_flame`'s merge loop. -/
def bitsOf (directions : List Direction) : Nat :=
  directions.foldl (fun m d => m ||| DIRECTION_TO_BIT d) 0

/-- The flame mask currently recorded for a position in a change-set,
exactly as `add_flame` recovers it (reverse scan of `flame_tokens`,
0 for an absent entry). -/
def changeMask (c : Changes) (p : Position) : Nat :=
  match lookupTok c p with
  | some cur => revMask cur
  | Option.none => 0

/-- Replace every leftover flame glyph of a grid by the empty marker,
leaving all other cells (empty, wall, bomb, ...) unchanged. -/
def scrubTok (tok : Token) : Token :=
  if tok ∈ Token.FLAMES then Token.EMPTY else tok

/-- The grid with all leftover flame glyphs scrubbed to empty. -/
def scrubFlames (t : Terrain) : Terrain :=
  { t with cells := t.cells.map scrubTok }

/-- All valid positions of a grid, row by row. -/
def validPositions (t : Terrain) : List Position :=
  (List.range t.height).flatMap fun y =>
    (List.range t.width).map fun x => Position.mk (Int.ofNat x) (Int.ofNat y)

/-- The number of valid positions not yet recorded in the change-set:
the measure that bounds the chain-reaction recursion. -/
def freeCount (t : Terrain) (c : Changes) : Nat :=
  (validPositions t).countP fun p => decide (lookupTok c p = Option.none)

/-- Build a w × h grid that is empty except for the listed
(x, y, token) cells. -/
def mkGrid (w h : Nat) (entries : List (Nat × Nat × Token)) : Terrain :=
  ⟨w, h, entries.foldl (fun cs e => cs.set (e.2.1 * w + e.1) e.2.2)
    (List.replicate (w * h) Token.EMPTY)⟩

/-- A 9 × 9 all-empty grid with a single bomb at its center (4, 4). -/
def centerBombGrid : Terrain := mkGrid 9 9 [(4, 4, Token.BOMB)]

/-- A 7 × 7 empty grid with bombs at (1, 3) and (4, 3): the first bomb's
3-cell blast radius reaches the second bomb's cell. -/
def twoBombGrid : Terrain := mkGrid 7 7 [(1, 3, Token.BOMB), (4, 3, Token.BOMB)]

/-- The change-set produced by detonating the bomb at (1, 3) of
`twoBombGrid` (checked below by computation). -/
def twoBombChangesA : Changes :=
  [(⟨1, 3⟩, ⟨'┼'⟩), (⟨1, 2⟩, ⟨'│'⟩), (⟨1, 1⟩, ⟨'│'⟩), (⟨1, 0⟩, ⟨'╷'⟩),
   (⟨1, 4⟩, ⟨'│'⟩), (⟨1, 5⟩, ⟨'│'⟩), (⟨1, 6⟩, ⟨'╵'⟩), (⟨0, 3⟩, ⟨'─'⟩),
   (⟨2, 3⟩, ⟨'─'⟩), (⟨3, 3⟩, ⟨'─'⟩), (⟨4, 3⟩, ⟨'┼'⟩), (⟨4, 2⟩, ⟨'│'⟩),
   (⟨4, 1⟩, ⟨'│'⟩), (⟨4, 0⟩, ⟨'╷'⟩), (⟨4, 4⟩, ⟨'│'⟩), (⟨4, 5⟩, ⟨'│'⟩),
   (⟨4, 6⟩, ⟨'╵'⟩), (⟨5, 3⟩, ⟨'─'⟩), (⟨6, 3⟩, ⟨'─'⟩)]

/-- The change-set produced by detonating the bomb at (4, 3) of
`twoBombGrid` (checked below by computation). -/
def twoBombChangesB : Changes :=
  [(⟨4, 3⟩, ⟨'┼'⟩), (⟨4, 2⟩, ⟨'│'⟩), (⟨4, 1⟩, ⟨'│'⟩), (⟨4, 0⟩, ⟨'╷'⟩),
   (⟨4, 4⟩, ⟨'│'⟩), (⟨4, 5⟩, ⟨'│'⟩), (⟨4, 6⟩, ⟨'╵'⟩), (⟨3, 3⟩, ⟨'─'⟩),
   (⟨2, 3⟩, ⟨'─'⟩), (⟨1, 3⟩, ⟨'┼'⟩), (⟨1, 2⟩, ⟨'│'⟩), (⟨1, 1⟩, ⟨'│'⟩),
   (⟨1, 0⟩, ⟨'╷'⟩), (⟨1, 4⟩, ⟨'│'⟩), (⟨1, 5⟩, ⟨'│'⟩), (⟨1, 6⟩, ⟨'╵'⟩),
   (⟨0, 3⟩, ⟨'─'⟩), (⟨5, 3⟩, ⟨'─'⟩), (⟨6, 3⟩, ⟨'─'⟩)]

/-- A 4 × 4 grid: bomb at (0, 0), wall at (1, 0), and two more bombs at
(0, 3) and (3, 3) forming an L-shaped chain whose last blast reaches
back into row 0 beyond the wall. -/
def chainWallGrid : Terrain :=
  mkGrid 4 4 [(0, 0, Token.BOMB), (1, 0, Token.WALL), (0, 3, Token.BOMB), (3, 3, Token.BOMB)]

/-- The change-set produced by detonating the bomb at (0, 0) of
`chainWallGrid` (checked below by computation): note the flame at (3, 0),
beyond the destroyed wall (1, 0), deposited by the chained bomb (3, 3). -/
def chainWallChanges : Changes :=
  [(⟨0, 0⟩, ⟨'┼'⟩), (⟨0, 1⟩, ⟨'│'⟩), (⟨0, 2⟩, ⟨'│'⟩), (⟨0, 3⟩, ⟨'┼'⟩),
   (⟨1, 3⟩, ⟨'─'⟩), (⟨2, 3⟩, ⟨'─'⟩), (⟨3, 3⟩, ⟨'┼'⟩), (⟨3, 2⟩, ⟨'│'⟩),
   (⟨3, 1⟩, ⟨'│'⟩), (⟨3, 0⟩, ⟨'╷'⟩), (⟨1, 0⟩, ⟨' '⟩)]

/-- A 9 × 9 grid with a single bomb at (4, 4) and a wall at (5, 4),
one cell to the bomb's right. -/
def wallGrid : Terrain := mkGrid 9 9 [(4, 4, Token.BOMB), (5, 4, Token.WALL)]

/-- A 2 × 2 all-empty grid. -/
def tinyGrid : Terrain := mkGrid 2 2 []

/-- A 3 × 3 grid with a bomb at its center: every blast arm reaches the
boundary after one step. -/
def smallGrid : Terrain := mkGrid 3 3 [(1, 1, Token.BOMB)]

/-- A 3 × 7 grid with a bomb at (1, 3) and a leftover flame glyph '─'
at (1, 2), one cell above the bomb. -/
def leftoverFlameGrid : Terrain :=
  mkGrid 3 7 [(1, 3, Token.BOMB), (1, 2, Token.mk '─')]

/-! ### Lemmas about the change-set dictionary -/

theorem lookupTok_setTok_self (c : Changes) (p : Position) (tok : Token) :
    lookupTok (setTok c p tok) p = some tok := by
  induction c with
  | nil => simp [setTok, lookupTok]
  | cons head rest ih =>
    obtain ⟨q, t⟩ := head
    by_cases h : q = p
    · simp [setTok, lookupTok, h]
    · simp [setTok, lookupTok, h, ih]

theorem lookupTok_setTok_ne (c : Changes) (p q : Position) (tok : Token)
    (h : p ≠ q) : lookupTok (setTok c p tok) q = lookupTok c q := by
  induction c with
  | nil => simp [setTok, lookupTok, h]
  | cons head rest ih =>
    obtain ⟨r, t⟩ := head
    by_cases hr : r = p
    · subst hr
      simp [setTok, lookupTok, h]
    · simp [setTok, lookupTok, hr, ih]

theorem setTok_setTok (c : Changes) (p : Position) (a b : Token) :
    setTok (setTok c p a) p b = setTok c p b := by
  induction c with
  | nil => simp [setTok]
  | cons head rest ih =>
    obtain ⟨q, t⟩ := head
    by_cases h : q = p
    · simp [setTok, h]
    · simp [setTok, h, ih]

theorem lookupTok_eq_none_iff (c : Changes) (p : Position) :
    lookupTok c p = Option.none ↔ p ∉ keysOf c := by
  induction c with
  | nil => simp [lookupTok, keysOf]
  | cons head rest ih =>
    obtain ⟨q, t⟩ := head
    by_cases h : q = p
    · simp [lookupTok, keysOf, h]
    · simp [lookupTok, keysOf, h, ih, Ne.symm h]

theorem keysOf_setTok_of_mem (c : Changes) (p : Position) (tok : Token) :
    p ∈ keysOf c → keysOf (setTok c p tok) = keysOf c := by
  induction c with
  | nil => intro h; simp [keysOf] at h
  | cons head rest ih =>
    intro h
    obtain ⟨q, t⟩ := head
    by_cases hq : q = p
    · simp [setTok, hq, keysOf]
    · have hrest : p ∈ keysOf rest := by
        rcases (by simpa [keysOf] using h : p = q ∨ p ∈ keysOf rest) with h1 | h1
        · exact absurd h1.symm hq
        · exact h1
      simp only [setTok, if_neg hq, keysOf, List.map_cons]
      rw [show List.map Prod.fst (setTok rest p tok) = List.map Prod.fst rest from ih hrest]

theorem keysOf_setTok_of_not_mem (c : Changes) (p : Position) (tok : Token) :
    p ∉ keysOf c → keysOf (setTok c p tok) = keysOf c ++ [p] := by
  induction c with
  | nil => intro h; simp [setTok, keysOf]
  | cons head rest ih =>
    intro h
    obtain ⟨q, t⟩ := head
    have hq : q ≠ p := by
      intro hqp
      exact h (by simp [keysOf, hqp])
    have hrest : p ∉ keysOf rest := by
      intro hm
      exact h (by simp [keysOf] at hm ⊢; right; exact hm)
    simp only [setTok, if_neg hq, keysOf, List.map_cons]
    rw [show List.map Prod.fst (setTok rest p tok) = List.map Prod.fst rest ++ [p] from ih hrest]
    simp

theorem subset_keysOf_setTok (c : Changes) (p : Position) (tok : Token) :
    keysOf c ⊆ keysOf (setTok c p tok) := by
  by_cases h : p ∈ keysOf c
  · rw [keysOf_setTok_of_mem c p tok h]
    exact fun a ha => ha
  · rw [keysOf_setTok_of_not_mem c p tok h]
    exact List.subset_append_left _ _

theorem mem_keysOf_setTok (c : Changes) (p : Position) (tok : Token) :
    p ∈ keysOf (setTok c p tok) := by
  by_cases h : p ∈ keysOf c
  · rw [keysOf_setTok_of_mem c p tok h]; exact h
  · rw [keysOf_setTok_of_not_mem c p tok h]; simp

theorem keysOf_setTok_subset (c : Changes) (p : Position) (tok : Token) :
    keysOf (setTok c p tok) ⊆ p :: keysOf c := by
  by_cases h : p ∈ keysOf c
  · rw [keysOf_setTok_of_mem c p tok h]
    exact List.subset_cons_self _ _
  · rw [keysOf_setTok_of_not_mem c p tok h]
    intro q hq
    simp at hq ⊢
    tauto

theorem nodup_keysOf_setTok (c : Changes) (p : Position) (tok : Token)
    (h : (keysOf c).Nodup) : (keysOf (setTok c p tok)).Nodup := by
  by_cases hm : p ∈ keysOf c
  · rwa [keysOf_setTok_of_mem c p tok hm]
  · rw [keysOf_setTok_of_not_mem c p tok hm]
    simp [List.nodup_append, h, hm]

/-! ### Lemmas about masks and the flame table -/

theorem revMask_lt_sixteen (tok : Token) : revMask tok < 16 := by
  unfold revMask
  cases h : flame_tokens.find? (fun mt => mt.2 = tok) with
  | none => decide
  | some mt =>
    have hm := List.mem_of_find?_eq_some h
    simp only [flame_tokens, List.mem_cons, List.not_mem_nil, or_false] at hm
    rcases hm with rfl | rfl | rfl | rfl | rfl | rfl | rfl | rfl | rfl | rfl | rfl | rfl | rfl | rfl | rfl | rfl <;> decide

theorem revMask_flameTokOf : ∀ m < 16, revMask (flameTokOf m) = m := by decide

theorem changeMask_lt_sixteen (c : Changes) (p : Position) : changeMask c p < 16 := by
  unfold changeMask
  cases lookupTok c p with
  | none => decide
  | some cur => exact revMask_lt_sixteen cur

theorem foldl_or_eq (ds : List Direction) (a : Nat) :
    ds.foldl (fun m d => m ||| DIRECTION_TO_BIT d) a = a ||| bitsOf ds := by
  induction ds generalizing a with
  | nil => simp [bitsOf]
  | cons d ds ih =>
    have hb : bitsOf (d :: ds) = DIRECTION_TO_BIT d ||| bitsOf ds := by
      show List.foldl _ (0 ||| DIRECTION_TO_BIT d) ds = _
      rw [Nat.zero_or, ih]
    show List.foldl _ (a ||| DIRECTION_TO_BIT d) ds = _
    rw [ih, hb, Nat.or_assoc]

theorem bitsOf_lt_sixteen (ds : List Direction) : bitsOf ds < 16 := by
  induction ds with
  | nil => decide
  | cons d ds ih =>
    have hb : bitsOf (d :: ds) = DIRECTION_TO_BIT d ||| bitsOf ds := by
      show List.foldl _ (0 ||| DIRECTION_TO_BIT d) ds = _
      rw [Nat.zero_or, foldl_or_eq]
    rw [hb]
    have hd : DIRECTION_TO_BIT d < 16 := by cases d <;> decide
    have h16 : (16 : Nat) = 2 ^ 4 := rfl
    rw [h16] at hd ih ⊢
    exact Nat.or_lt_two_pow hd ih

/-! ### Lemmas about `add_flame` -/

theorem add_flame_of_valid (t : Terrain) (c : Changes) (p : Position)
    (ds : List Direction) (h : t.is_valid_position p = true) :
    add_flame t c p ds = setTok c p (flameTokOf (changeMask c p ||| bitsOf ds)) := by
  simp only [add_flame, changeMask, h, if_true, foldl_or_eq]

theorem add_flame_of_invalid (t : Terrain) (c : Changes) (p : Position)
    (ds : List Direction) (h : ¬ t.is_valid_position p = true) :
    add_flame t c p ds = c := by
  unfold add_flame
  rw [if_neg h]

/-! ### Lemmas about the grid -/

theorem valid_iff (t : Terrain) (p : Position) :
    t.is_valid_position p = true ↔
      0 ≤ p.x ∧ p.x < (t.width : Int) ∧ 0 ≤ p.y ∧ p.y < (t.height : Int) := by
  unfold Terrain.is_valid_position
  by_cases h : p.x < 0 ∨ p.x ≥ (t.width : Int) ∨ p.y < 0 ∨ p.y ≥ (t.height : Int)
  · rw [if_pos h]
    constructor
    · intro hc; exact absurd hc (by simp)
    · intro hc; omega
  · rw [if_neg h]
    constructor
    · intro _; omega
    · intro _; rfl

theorem get_token_some_valid (t : Terrain) (p : Position) (tok : Token)
    (h : t.get_token p = some tok) : t.is_valid_position p = true := by
  unfold Terrain.get_token Terrain.loc_to_index at h
  by_cases hv : t.is_valid_position p
  · exact hv
  · rw [if_neg hv] at h
    simp at h

theorem valid_index_lt (t : Terrain) (p : Position) (hWF : t.WF)
    (hv : t.is_valid_position p = true) :
    (p.y * (t.width : Int) + p.x).toNat < t.cells.length := by
  rw [valid_iff] at hv
  obtain ⟨hx0, hxw, hy0, hyh⟩ := hv
  have hw0 : (0 : Int) ≤ (t.width : Int) := by positivity
  have h1 : p.y * (t.width : Int) + p.x < (p.y + 1) * (t.width : Int) := by ring_nf; omega
  have h2 : (p.y + 1) * (t.width : Int) ≤ (t.height : Int) * (t.width : Int) :=
    mul_le_mul_of_nonneg_right (by omega) hw0
  have h3 : p.y * (t.width : Int) + p.x < (t.height : Int) * (t.width : Int) := lt_of_lt_of_le h1 h2
  have h0 : (0 : Int) ≤ p.y * (t.width : Int) + p.x := by
    have := mul_nonneg hy0 hw0
    omega
  have hcast : ((t.width * t.height : Nat) : Int) = (t.height : Int) * (t.width : Int) := by
    push_cast; ring
  rw [hWF]
  omega

theorem get_token_isSome (t : Terrain) (p : Position) (hWF : t.WF)
    (hv : t.is_valid_position p = true) : ∃ tok, t.get_token p = some tok := by
  unfold Terrain.get_token Terrain.loc_to_index
  rw [if_pos hv]
  have hlt := valid_index_lt t p hWF hv
  cases hg : t.cells.get? (p.y * (t.width : Int) + p.x).toNat with
  | none =>
    rw [List.get?_eq_none] at hg
    omega
  | some tok => exact ⟨tok, hg⟩

theorem index_inj (t : Terrain) (p q : Position)
    (hp : t.is_valid_position p = true) (hq : t.is_valid_position q = true)
    (h : (p.y * (t.width : Int) + p.x).toNat = (q.y * (t.width : Int) + q.x).toNat) :
    p = q := by
  rw [valid_iff] at hp hq
  obtain ⟨hx0, hxw, hy0, hyh⟩ := hp
  obtain ⟨hx0', hxw', hy0', hyh'⟩ := hq
  have hw0 : (0 : Int) ≤ (t.width : Int) := by positivity
  have e1 : (0 : Int) ≤ p.y * (t.width : Int) + p.x := by
    have := mul_nonneg hy0 hw0; omega
  have e2 : (0 : Int) ≤ q.y * (t.width : Int) + q.x := by
    have := mul_nonneg hy0' hw0; omega
  have h1 : p.y * (t.width : Int) + p.x = q.y * (t.width : Int) + q.x := by
    have hp' := Int.toNat_of_nonneg e1
    have hq' := Int.toNat_of_nonneg e2
    rw [← hp', ← hq', h]
  have hyy : p.y = q.y := by
    by_contra hne
    rcases lt_or_gt_of_ne hne with hlt | hgt
    · have hd : p.y + 1 ≤ q.y := by omega
      have : (p.y + 1) * (t.width : Int) ≤ q.y * (t.width : Int) :=
        mul_le_mul_of_nonneg_right (by omega) hw0
      nlinarith
    · have hd : q.y + 1 ≤ p.y := by omega
      have : (q.y + 1) * (t.width : Int) ≤ p.y * (t.width : Int) :=
        mul_le_mul_of_nonneg_right (by omega) hw0
      nlinarith
  have hxx : p.x = q.x := by
    rw [hyy] at h1
    omega
  obtain ⟨px, py⟩ := p
  obtain ⟨qx, qy⟩ := q
  simp_all

theorem set_cell_WF (t : Terrain) (p : Position) (tok : Token) (h : t.WF) :
    (t.set_cell p tok).WF := by
  show (t.cells.set (p.y * (t.width : Int) + p.x).toNat tok).length = t.width * t.height
  rw [List.length_set]
  exact h

theorem is_valid_set_cell (t : Terrain) (p q : Position) (tok : Token) :
    (t.set_cell q tok).is_valid_position p = t.is_valid_position p := rfl

theorem get_token_set_cell_self (t : Terrain) (p : Position) (tok : Token)
    (hWF : t.WF) (hv : t.is_valid_position p = true) :
    (t.set_cell p tok).get_token p = some tok := by
  have hval : (t.set_cell p tok).is_valid_position p = true := hv
  show Terrain.get_token _ p = some tok
  unfold Terrain.get_token Terrain.loc_to_index
  rw [if_pos hval]
  have hlt := valid_index_lt t p hWF hv
  show (t.cells.set (p.y * (t.width : Int) + p.x).toNat tok).get?
    (p.y * (t.width : Int) + p.x).toNat = some tok
  rw [List.get?_set_eq]
  cases hg : t.cells.get? (p.y * (t.width : Int) + p.x).toNat with
  | none =>
    rw [List.get?_eq_none] at hg
    omega
  | some old => simp

theorem get_token_set_cell_ne (t : Terrain) (p q : Position) (tok : Token)
    (hp : t.is_valid_position p = true) (hq : t.is_valid_position q = true)
    (hne : q ≠ p) : (t.set_cell q tok).get_token p = t.get_token p := by
  have hval : (t.set_cell q tok).is_valid_position p = true := hp
  unfold Terrain.get_token Terrain.loc_to_index
  rw [if_pos hval, if_pos hp]
  have hidx : (q.y * (t.width : Int) + q.x).toNat ≠ (p.y * (t.width : Int) + p.x).toNat := by
    intro h
    exact hne (index_inj t q p hq hp h)
  show (t.cells.set (q.y * (t.width : Int) + q.x).toNat tok).get?
    (p.y * (t.width : Int) + p.x).toNat = t.cells.get? (p.y * (t.width : Int) + p.x).toNat
  rw [List.get?_set_ne _ _ hidx]

/-! ### Lemmas about `Terrain.update` -/

theorem update_exists :
    ∀ (cs : Changes) (t : Terrain), t.WF →
      (∀ p ∈ keysOf cs, t.is_valid_position p = true) →
      ∃ t', t.update cs = some t' ∧ t'.WF ∧ t'.width = t.width ∧ t'.height = t.height ∧
        (∀ q, t.is_valid_position q = true → q ∉ keysOf cs →
          t'.get_token q = t.get_token q) := by
  intro cs
  induction cs with
  | nil =>
    intro t hWF _
    exact ⟨t, rfl, hWF, rfl, rfl, fun q _ _ => rfl⟩
  | cons head rest ih =>
    intro t hWF hvalid
    obtain ⟨q, tk⟩ := head
    have hq : t.is_valid_position q = true := hvalid q (by simp [keysOf])
    have hrest : ∀ p ∈ keysOf rest, (t.set_cell q tk).is_valid_position p = true := by
      intro p hp
      rw [is_valid_set_cell]
      exact hvalid p (by simp [keysOf] at hp ⊢; right; exact hp)
    obtain ⟨t', hup, hWF', hw, hh, hread⟩ := ih (t.set_cell q tk) (set_cell_WF t q tk hWF) hrest
    refine ⟨t', ?_, hWF', hw, hh, ?_⟩
    · show Terrain.update t ((q, tk) :: rest) = some t'
      unfold Terrain.update
      rw [if_pos hq]
      exact hup
    · intro r hr hmem
      have hr1 : r ∉ keysOf rest := by
        intro hc
        exact hmem (by simp [keysOf] at hc ⊢; right; exact hc)
      have hne : q ≠ r := by
        intro hc
        exact hmem (by simp [keysOf, hc])
      have h1 : t'.get_token r = (t.set_cell q tk).get_token r := by
        apply hread
        · rw [is_valid_set_cell]; exact hr
        · exact hr1
      rw [h1, get_token_set_cell_ne t r q tk hr hq hne]

theorem update_reads :
    ∀ (cs : Changes) (t t' : Terrain), t.WF →
      (∀ p ∈ keysOf cs, t.is_valid_position p = true) →
      (keysOf cs).Nodup →
      t.update cs = some t' →
      ∀ p tok, (p, tok) ∈ cs → t'.get_token p = some tok := by
  intro cs
  induction cs with
  | nil =>
    intro t t' _ _ _ _ p tok hmem
    simp at hmem
  | cons head rest ih =>
    intro t t' hWF hvalid hnodup hup p tok hmem
    obtain ⟨q, tk⟩ := head
    have hq : t.is_valid_position q = true := hvalid q (by simp [keysOf])
    have hup' : (t.set_cell q tk).update rest = some t' := by
      unfold Terrain.update at hup
      rw [if_pos hq] at hup
      exact hup
    have hWF1 : (t.set_cell q tk).WF := set_cell_WF t q tk hWF
    have hvalid1 : ∀ p' ∈ keysOf rest, (t.set_cell q tk).is_valid_position p' = true := by
      intro p' hp'
      rw [is_valid_set_cell]
      exact hvalid p' (by simp [keysOf] at hp' ⊢; right; exact hp')
    have hnodup1 : (keysOf rest).Nodup := by
      simp [keysOf] at hnodup ⊢
      exact hnodup.2
    rcases List.mem_cons.mp hmem with heq | hmemr
    · injection heq with h1 h2
      subst h1
      subst h2
      have hnot : p ∉ keysOf rest := by
        simp only [keysOf, List.map_cons, List.nodup_cons] at hnodup
        exact hnodup.1
      obtain ⟨t'', hup'', hWF'', hw'', hh'', hread⟩ :=
        update_exists rest (t.set_cell p tok) hWF1 hvalid1
      have ht'' : t'' = t' := by
        rw [hup''] at hup'
        injection hup'
      rw [← ht'']
      have h1 := hread p (by rw [is_valid_set_cell]; exact hq) hnot
      rw [h1, get_token_set_cell_self t p tok hWF hq]
    · exact ih (t.set_cell q tk) t' hWF1 hvalid1 hnodup1 hup' p tok hmemr

/-! ### One-step equations for the engine's recursion -/

theorem propagate_zero (t : Terrain) (cur : Position) (d : Direction)
    (n : Nat) (c : Changes) :
    propagate 0 t cur d n c = if n = 0 then .ok c else .outOfFuel := by
  rw [propagate]

theorem propagate_succ (f : Nat) (t : Terrain) (cur : Position) (d : Direction)
    (n : Nat) (c : Changes) :
    propagate (f + 1) t cur d n c =
      if n = 0 then .ok c
      else
        match t.get_token cur with
        | Option.none => .err
        | some token =>
          if token = Token.WALL then .ok (setTok c cur Token.EMPTY)
          else if token = Token.BOMB ∧ lookupTok c cur = Option.none then
            detonateAux f t cur c
          else
            if t.is_valid_position (cur.get_new_position_from d) then
              propagate f t (cur.get_new_position_from d) d (n - 1)
                (add_flame t c cur
                  (if n = 1 then [d.opposite] else [d, d.opposite]))
            else
              .ok (add_flame t c cur
                (if n = 1 then [d.opposite] else [d, d.opposite])) := by
  rw [propagate]

theorem detonateAux_zero (t : Terrain) (center : Position) (c : Changes) :
    detonateAux 0 t center c = .outOfFuel := by
  rw [detonateAux]

theorem detonateAux_succ (f : Nat) (t : Terrain) (center : Position) (c : Changes) :
    detonateAux (f + 1) t center c =
      match oneDir f t center Direction.up
          (add_flame t c center
            [Direction.up, Direction.down, Direction.left, Direction.right]) with
      | .ok c1 =>
        match oneDir f t center Direction.down c1 with
        | .ok c2 =>
          match oneDir f t center Direction.left c2 with
          | .ok c3 => oneDir f t center Direction.right c3
          | r => r
        | r => r
      | r => r := by
  rw [detonateAux]

theorem oneDir_zero (t : Terrain) (center : Position) (d : Direction) (c : Changes) :
    oneDir 0 t center d c = .outOfFuel := by
  rw [oneDir]

theorem oneDir_succ (f : Nat) (t : Terrain) (center : Position) (d : Direction)
    (c : Changes) :
    oneDir (f + 1) t center d c =
      if t.is_valid_position (center.get_new_position_from d) then
        propagate f t (center.get_new_position_from d) d BOMB_SIZE c
      else .ok c := by
  rw [oneDir]

/-! ### Preservation lemmas for `add_flame` -/

theorem subset_keysOf_add_flame (t : Terrain) (c : Changes) (p : Position)
    (ds : List Direction) : keysOf c ⊆ keysOf (add_flame t c p ds) := by
  by_cases h : t.is_valid_position p = true
  · rw [add_flame_of_valid t c p ds h]
    exact subset_keysOf_setTok c p _
  · rw [add_flame_of_invalid t c p ds h]
    exact fun a ha => ha

theorem keysOf_add_flame_subset (t : Terrain) (c : Changes) (p : Position)
    (ds : List Direction) : keysOf (add_flame t c p ds) ⊆ p :: keysOf c := by
  by_cases h : t.is_valid_position p = true
  · rw [add_flame_of_valid t c p ds h]
    exact keysOf_setTok_subset c p _
  · rw [add_flame_of_invalid t c p ds h]
    exact List.subset_cons_self _ _

theorem valid_keysOf_add_flame (t : Terrain) (c : Changes) (p : Position)
    (ds : List Direction) (h : ∀ q ∈ keysOf c, t.is_valid_position q = true) :
    ∀ q ∈ keysOf (add_flame t c p ds), t.is_valid_position q = true := by
  by_cases hv : t.is_valid_position p = true
  · rw [add_flame_of_valid t c p ds hv]
    intro q hq
    rcases List.mem_cons.mp (keysOf_setTok_subset c p _ hq) with hq1 | hq1
    · rw [hq1]; exact hv
    · exact h q hq1
  · rw [add_flame_of_invalid t c p ds hv]
    exact h

theorem nodup_keysOf_add_flame (t : Terrain) (c : Changes) (p : Position)
    (ds : List Direction) (h : (keysOf c).Nodup) :
    (keysOf (add_flame t c p ds)).Nodup := by
  by_cases hv : t.is_valid_position p = true
  · rw [add_flame_of_valid t c p ds hv]
    exact nodup_keysOf_setTok c p _ h
  · rwa [add_flame_of_invalid t c p ds hv]

theorem mem_keysOf_add_flame (t : Terrain) (c : Changes) (p : Position)
    (ds : List Direction) (hv : t.is_valid_position p = true) :
    p ∈ keysOf (add_flame t c p ds) := by
  rw [add_flame_of_valid t c p ds hv]
  exact mem_keysOf_setTok c p _

/-! ### Key-set invariants of the detonation recursion -/

theorem keys_invariants :
    ∀ fuel : Nat,
      (∀ t cur d n (c c' : Changes), propagate fuel t cur d n c = .ok c' →
        keysOf c ⊆ keysOf c' ∧
        ((∀ p ∈ keysOf c, t.is_valid_position p = true) →
          ∀ p ∈ keysOf c', t.is_valid_position p = true) ∧
        ((keysOf c).Nodup → (keysOf c').Nodup)) ∧
      (∀ t ctr (c c' : Changes), detonateAux fuel t ctr c = .ok c' →
        keysOf c ⊆ keysOf c' ∧
        ((∀ p ∈ keysOf c, t.is_valid_position p = true) →
          ∀ p ∈ keysOf c', t.is_valid_position p = true) ∧
        ((keysOf c).Nodup → (keysOf c').Nodup)) ∧
      (∀ t ctr d (c c' : Changes), oneDir fuel t ctr d c = .ok c' →
        keysOf c ⊆ keysOf c' ∧
        ((∀ p ∈ keysOf c, t.is_valid_position p = true) →
          ∀ p ∈ keysOf c', t.is_valid_position p = true) ∧
        ((keysOf c).Nodup → (keysOf c').Nodup)) := by
  intro fuel
  induction fuel with
  | zero =>
    refine ⟨?_, ?_, ?_⟩
    · intro t cur d n c c' h
      rw [propagate_zero] at h
      by_cases hn : n = 0
      · rw [if_pos hn] at h
        injection h with h
        subst h
        exact ⟨fun a ha => ha, fun hv => hv, id⟩
      · rw [if_neg hn] at h
        cases h
    · intro t ctr c c' h
      rw [detonateAux_zero] at h
      cases h
    · intro t ctr d c c' h
      rw [oneDir_zero] at h
      cases h
  | succ f ih =>
    obtain ⟨ihP, ihD, ihO⟩ := ih
    have stepP : ∀ t cur d n (c c' : Changes), propagate (f + 1) t cur d n c = .ok c' →
        keysOf c ⊆ keysOf c' ∧
        ((∀ p ∈ keysOf c, t.is_valid_position p = true) →
          ∀ p ∈ keysOf c', t.is_valid_position p = true) ∧
        ((keysOf c).Nodup → (keysOf c').Nodup) := by
      intro t cur d n c c' h
      rw [propagate_succ] at h
      by_cases hn : n = 0
      · rw [if_pos hn] at h
        injection h with h
        subst h
        exact ⟨fun a ha => ha, fun hv => hv, id⟩
      · rw [if_neg hn] at h
        cases hg : t.get_token cur with
        | none => simp only [hg] at h; cases h
        | some token =>
          simp only [hg] at h
          have hcv : t.is_valid_position cur = true := get_token_some_valid t cur token hg
          by_cases hw : token = Token.WALL
          · rw [if_pos hw] at h
            injection h with h
            subst h
            refine ⟨subset_keysOf_setTok c cur Token.EMPTY, ?_, nodup_keysOf_setTok c cur _⟩
            intro hv p hp
            rcases List.mem_cons.mp (keysOf_setTok_subset c cur _ hp) with hp1 | hp1
            · rw [hp1]; exact hcv
            · exact hv p hp1
          · rw [if_neg hw] at h
            by_cases hb : token = Token.BOMB ∧ lookupTok c cur = Option.none
            · rw [if_pos hb] at h
              exact ihD t cur c c' h
            · rw [if_neg hb] at h
              by_cases hv : t.is_valid_position (cur.get_new_position_from d) = true
              · rw [if_pos hv] at h
                obtain ⟨h1, h2, h3⟩ := ihP t _ d (n - 1) _ c' h
                refine ⟨(subset_keysOf_add_flame t c cur _).trans h1, ?_, ?_⟩
                · intro hval
                  exact h2 (valid_keysOf_add_flame t c cur _ hval)
                · intro hnd
                  exact h3 (nodup_keysOf_add_flame t c cur _ hnd)
              · rw [if_neg hv] at h
                injection h with h
                subst h
                exact ⟨subset_keysOf_add_flame t c cur _,
                  fun hval => valid_keysOf_add_flame t c cur _ hval,
                  nodup_keysOf_add_flame t c cur _⟩
    have stepO : ∀ t ctr d (c c' : Changes), oneDir (f + 1) t ctr d c = .ok c' →
        keysOf c ⊆ keysOf c' ∧
        ((∀ p ∈ keysOf c, t.is_valid_position p = true) →
          ∀ p ∈ keysOf c', t.is_valid_position p = true) ∧
        ((keysOf c).Nodup → (keysOf c').Nodup) := by
      intro t ctr d c c' h
      rw [oneDir_succ] at h
      by_cases hv : t.is_valid_position (ctr.get_new_position_from d) = true
      · rw [if_pos hv] at h
        exact ihP t _ d BOMB_SIZE c c' h
      · rw [if_neg hv] at h
        injection h with h
        subst h
        exact ⟨fun a ha => ha, fun hval => hval, id⟩
    have stepD : ∀ t ctr (c c' : Changes), detonateAux (f + 1) t ctr c = .ok c' →
        keysOf c ⊆ keysOf c' ∧
        ((∀ p ∈ keysOf c, t.is_valid_position p = true) →
          ∀ p ∈ keysOf c', t.is_valid_position p = true) ∧
        ((keysOf c).Nodup → (keysOf c').Nodup) := by
      intro t ctr c c' h
      rw [detonateAux_succ] at h
      cases h1 : oneDir f t ctr Direction.up
          (add_flame t c ctr
            [Direction.up, Direction.down, Direction.left, Direction.right]) with
      | err => simp only [h1] at h; cases h
      | outOfFuel => simp only [h1] at h; cases h
      | ok c1 =>
        simp only [h1] at h
        cases h2 : oneDir f t ctr Direction.down c1 with
        | err => simp only [h2] at h; cases h
        | outOfFuel => simp only [h2] at h; cases h
        | ok c2 =>
          simp only [h2] at h
          cases h3 : oneDir f t ctr Direction.left c2 with
          | err => simp only [h3] at h; cases h
          | outOfFuel => simp only [h3] at h; cases h
          | ok c3 =>
            simp only [h3] at h
            obtain ⟨s1, v1, n1⟩ := ihO t ctr Direction.up _ c1 h1
            obtain ⟨s2, v2, n2⟩ := ihO t ctr Direction.down c1 c2 h2
            obtain ⟨s3, v3, n3⟩ := ihO t ctr Direction.left c2 c3 h3
            obtain ⟨s4, v4, n4⟩ := ihO t ctr Direction.right c3 c' h
            have s0 := subset_keysOf_add_flame t c ctr
              [Direction.up, Direction.down, Direction.left, Direction.right]
            refine ⟨s0.trans (s1.trans (s2.trans (s3.trans s4))), ?_, ?_⟩
            · intro hval
              exact v4 (v3 (v2 (v1 (valid_keysOf_add_flame t c ctr _ hval))))
            · intro hnd
              exact n4 (n3 (n2 (n1 (nodup_keysOf_add_flame t c ctr _ hnd))))
    exact ⟨stepP, stepD, stepO⟩

/-! ### The engine never raises a grid error from a valid start -/

theorem no_error :
    ∀ fuel : Nat,
      (∀ t cur d n (c : Changes), t.WF → t.is_valid_position cur = true →
        propagate fuel t cur d n c ≠ .err) ∧
      (∀ t ctr (c : Changes), t.WF → detonateAux fuel t ctr c ≠ .err) ∧
      (∀ t ctr d (c : Changes), t.WF → oneDir fuel t ctr d c ≠ .err) := by
  intro fuel
  induction fuel with
  | zero =>
    refine ⟨?_, ?_, ?_⟩
    · intro t cur d n c _ _
      rw [propagate_zero]
      by_cases hn : n = 0
      · rw [if_pos hn]; intro h; cases h
      · rw [if_neg hn]; intro h; cases h
    · intro t ctr c _
      rw [detonateAux_zero]; intro h; cases h
    · intro t ctr d c _
      rw [oneDir_zero]; intro h; cases h
  | succ f ih =>
    obtain ⟨ihP, ihD, ihO⟩ := ih
    have stepP : ∀ t cur d n (c : Changes), t.WF → t.is_valid_position cur = true →
        propagate (f + 1) t cur d n c ≠ .err := by
      intro t cur d n c hWF hval
      rw [propagate_succ]
      by_cases hn : n = 0
      · rw [if_pos hn]; intro h; cases h
      · rw [if_neg hn]
        obtain ⟨tok, htok⟩ := get_token_isSome t cur hWF hval
        simp only [htok]
        by_cases hw : tok = Token.WALL
        · rw [if_pos hw]; intro h; cases h
        · rw [if_neg hw]
          by_cases hb : tok = Token.BOMB ∧ lookupTok c cur = Option.none
          · rw [if_pos hb]
            exact ihD t cur c hWF
          · rw [if_neg hb]
            by_cases hv : t.is_valid_position (cur.get_new_position_from d) = true
            · rw [if_pos hv]
              exact ihP t _ d (n - 1) _ hWF hv
            · rw [if_neg hv]; intro h; cases h
    have stepO : ∀ t ctr d (c : Changes), t.WF → oneDir (f + 1) t ctr d c ≠ .err := by
      intro t ctr d c hWF
      rw [oneDir_succ]
      by_cases hv : t.is_valid_position (ctr.get_new_position_from d) = true
      · rw [if_pos hv]
        exact ihP t _ d BOMB_SIZE c hWF hv
      · rw [if_neg hv]; intro h; cases h
    have stepD : ∀ t ctr (c : Changes), t.WF → detonateAux (f + 1) t ctr c ≠ .err := by
      intro t ctr c hWF h
      rw [detonateAux_succ] at h
      cases h1 : oneDir f t ctr Direction.up
          (add_flame t c ctr
            [Direction.up, Direction.down, Direction.left, Direction.right]) with
      | err => exact ihO t ctr Direction.up _ hWF h1
      | outOfFuel => simp only [h1] at h; cases h
      | ok c1 =>
        simp only [h1] at h
        cases h2 : oneDir f t ctr Direction.down c1 with
        | err => exact ihO t ctr Direction.down c1 hWF h2
        | outOfFuel => simp only [h2] at h; cases h
        | ok c2 =>
          simp only [h2] at h
          cases h3 : oneDir f t ctr Direction.left c2 with
          | err => exact ihO t ctr Direction.left c2 hWF h3
          | outOfFuel => simp only [h3] at h; cases h
          | ok c3 =>
            simp only [h3] at h
            exact ihO t ctr Direction.right c3 hWF h
    exact ⟨stepP, stepD, stepO⟩

/-! ### Leftover flame glyphs behave exactly like empty cells -/

theorem scrub_is_valid (t : Terrain) (p : Position) :
    (scrubFlames t).is_valid_position p = t.is_valid_position p := rfl

theorem scrub_get_token (t : Terrain) (p : Position) :
    (scrubFlames t).get_token p = (t.get_token p).map scrubTok := by
  unfold Terrain.get_token Terrain.loc_to_index
  by_cases hv : t.is_valid_position p = true
  · have hv' : (scrubFlames t).is_valid_position p = true := hv
    rw [if_pos hv, if_pos hv']
    show (t.cells.map scrubTok).get? _ = _
    rw [List.get?_map]
    rfl
  · have hv' : ¬ (scrubFlames t).is_valid_position p = true := hv
    rw [if_neg hv, if_neg hv']
    rfl

theorem scrubTok_eq_wall_iff (tok : Token) :
    scrubTok tok = Token.WALL ↔ tok = Token.WALL := by
  unfold scrubTok
  by_cases hf : tok ∈ Token.FLAMES
  · rw [if_pos hf]
    have h1 : Token.EMPTY ≠ Token.WALL := by decide
    have h2 : tok ≠ Token.WALL := by
      intro h
      rw [h] at hf
      exact absurd hf (by decide)
    exact ⟨fun h => absurd h h1, fun h => absurd h h2⟩
  · rw [if_neg hf]

theorem scrubTok_eq_bomb_iff (tok : Token) :
    scrubTok tok = Token.BOMB ↔ tok = Token.BOMB := by
  unfold scrubTok
  by_cases hf : tok ∈ Token.FLAMES
  · rw [if_pos hf]
    have h1 : Token.EMPTY ≠ Token.BOMB := by decide
    have h2 : tok ≠ Token.BOMB := by
      intro h
      rw [h] at hf
      exact absurd hf (by decide)
    exact ⟨fun h => absurd h h1, fun h => absurd h h2⟩
  · rw [if_neg hf]

theorem scrub_invariance :
    ∀ fuel : Nat,
      (∀ t cur d n (c : Changes),
        propagate fuel (scrubFlames t) cur d n c = propagate fuel t cur d n c) ∧
      (∀ t ctr (c : Changes),
        detonateAux fuel (scrubFlames t) ctr c = detonateAux fuel t ctr c) ∧
      (∀ t ctr d (c : Changes),
        oneDir fuel (scrubFlames t) ctr d c = oneDir fuel t ctr d c) := by
  intro fuel
  induction fuel with
  | zero =>
    refine ⟨?_, ?_, ?_⟩
    · intro t cur d n c
      rw [propagate_zero, propagate_zero]
    · intro t ctr c
      rw [detonateAux_zero, detonateAux_zero]
    · intro t ctr d c
      rw [oneDir_zero, oneDir_zero]
  | succ f ih =>
    obtain ⟨ihP, ihD, ihO⟩ := ih
    have stepP : ∀ t cur d n (c : Changes),
        propagate (f + 1) (scrubFlames t) cur d n c = propagate (f + 1) t cur d n c := by
      intro t cur d n c
      rw [propagate_succ, propagate_succ]
      by_cases hn : n = 0
      · rw [if_pos hn, if_pos hn]
      · rw [if_neg hn, if_neg hn]
        cases hg : t.get_token cur with
        | none =>
          have hg' : (scrubFlames t).get_token cur = Option.none := by
            rw [scrub_get_token, hg]
            rfl
          simp only [hg, hg']
        | some tok =>
          have hg' : (scrubFlames t).get_token cur = some (scrubTok tok) := by
            rw [scrub_get_token, hg]
            rfl
          simp only [hg, hg']
          by_cases hw : tok = Token.WALL
          · rw [if_pos hw, if_pos ((scrubTok_eq_wall_iff tok).mpr hw)]
          · rw [if_neg hw, if_neg (fun h => hw ((scrubTok_eq_wall_iff tok).mp h))]
            by_cases hb : tok = Token.BOMB ∧ lookupTok c cur = Option.none
            · have hb' : scrubTok tok = Token.BOMB ∧ lookupTok c cur = Option.none :=
                ⟨(scrubTok_eq_bomb_iff tok).mpr hb.1, hb.2⟩
              rw [if_pos hb, if_pos hb']
              exact ihD t cur c
            · have hb' : ¬ (scrubTok tok = Token.BOMB ∧ lookupTok c cur = Option.none) := by
                intro hc
                exact hb ⟨(scrubTok_eq_bomb_iff tok).mp hc.1, hc.2⟩
              rw [if_neg hb, if_neg hb']
              have hadd : add_flame (scrubFlames t) c cur
                  (if n = 1 then [d.opposite] else [d, d.opposite]) =
                  add_flame t c cur (if n = 1 then [d.opposite] else [d, d.opposite]) := rfl
              have hval : (scrubFlames t).is_valid_position (cur.get_new_position_from d) =
                  t.is_valid_position (cur.get_new_position_from d) := rfl
              rw [hadd, hval]
              by_cases hv : t.is_valid_position (cur.get_new_position_from d) = true
              · rw [if_pos hv, if_pos hv]
                exact ihP t _ d (n - 1) _
              · rw [if_neg hv, if_neg hv]
    have stepO : ∀ t ctr d (c : Changes),
        oneDir (f + 1) (scrubFlames t) ctr d c = oneDir (f + 1) t ctr d c := by
      intro t ctr d c
      rw [oneDir_succ, oneDir_succ]
      have hval : (scrubFlames t).is_valid_position (ctr.get_new_position_from d) =
          t.is_valid_position (ctr.get_new_position_from d) := rfl
      rw [hval]
      by_cases hv : t.is_valid_position (ctr.get_new_position_from d) = true
      · rw [if_pos hv, if_pos hv]
        exact ihP t _ d BOMB_SIZE c
      · rw [if_neg hv, if_neg hv]
    have stepD : ∀ t ctr (c : Changes),
        detonateAux (f + 1) (scrubFlames t) ctr c = detonateAux (f + 1) t ctr c := by
      intro t ctr c
      rw [detonateAux_succ, detonateAux_succ]
      have hadd : add_flame (scrubFlames t) c ctr
          [Direction.up, Direction.down, Direction.left, Direction.right] =
          add_flame t c ctr
          [Direction.up, Direction.down, Direction.left, Direction.right] := rfl
      rw [hadd, ihO t ctr Direction.up]
      cases oneDir f t ctr Direction.up
          (add_flame t c ctr
            [Direction.up, Direction.down, Direction.left, Direction.right]) with
      | err => rfl
      | outOfFuel => rfl
      | ok c1 =>
        show (match oneDir f (scrubFlames t) ctr Direction.down c1 with
              | .ok c2 =>
                match oneDir f (scrubFlames t) ctr Direction.left c2 with
                | .ok c3 => oneDir f (scrubFlames t) ctr Direction.right c3
                | r => r
              | r => r) =
            (match oneDir f t ctr Direction.down c1 with
              | .ok c2 =>
                match oneDir f t ctr Direction.left c2 with
                | .ok c3 => oneDir f t ctr Direction.right c3
                | r => r
              | r => r)
        rw [ihO t ctr Direction.down]
        cases oneDir f t ctr Direction.down c1 with
        | err => rfl
        | outOfFuel => rfl
        | ok c2 =>
          show (match oneDir f (scrubFlames t) ctr Direction.left c2 with
                | .ok c3 => oneDir f (scrubFlames t) ctr Direction.right c3
                | r => r) =
              (match oneDir f t ctr Direction.left c2 with
                | .ok c3 => oneDir f t ctr Direction.right c3
                | r => r)
          rw [ihO t ctr Direction.left]
          cases oneDir f t ctr Direction.left c2 with
          | err => rfl
          | outOfFuel => rfl
          | ok c3 =>
            show oneDir f (scrubFlames t) ctr Direction.right c3 =
              oneDir f t ctr Direction.right c3
            exact ihO t ctr Direction.right c3
    exact ⟨stepP, stepD, stepO⟩

/-! ### Counting unrecorded valid cells: the chain-reaction measure -/

theorem mem_validPositions (t : Terrain) (p : Position)
    (hv : t.is_valid_position p = true) : p ∈ validPositions t := by
  rw [valid_iff] at hv
  obtain ⟨hx0, hxw, hy0, hyh⟩ := hv
  unfold validPositions
  rw [List.mem_flatMap]
  refine ⟨p.y.toNat, ?_, ?_⟩
  · rw [List.mem_range]
    omega
  · rw [List.mem_map]
    refine ⟨p.x.toNat, ?_, ?_⟩
    · rw [List.mem_range]
      omega
    · have hx : ((p.x.toNat : Int)) = p.x := Int.toNat_of_nonneg hx0
      have hy : ((p.y.toNat : Int)) = p.y := Int.toNat_of_nonneg hy0
      obtain ⟨px, py⟩ := p
      simp_all

theorem length_validPositions (t : Terrain) :
    (validPositions t).length = t.height * t.width := by
  unfold validPositions
  rw [List.length_flatMap]
  have h1 : List.map (List.length ∘ fun y =>
      (List.range t.width).map fun x => Position.mk (Int.ofNat x) (Int.ofNat y))
      (List.range t.height) = List.replicate t.height t.width := by
    rw [show (List.replicate t.height t.width) =
        List.map (Function.const Nat t.width) (List.range t.height) by
      rw [List.map_const, List.length_range]]
    apply List.map_congr_left
    intro a _
    simp
  rw [h1, List.sum_replicate, smul_eq_mul]

theorem freeCount_le (t : Terrain) (c : Changes) :
    freeCount t c ≤ t.height * t.width := by
  unfold freeCount
  calc (validPositions t).countP _ ≤ (validPositions t).length := List.countP_le_length _
    _ = t.height * t.width := length_validPositions t

theorem freeCount_mono (t : Terrain) (c c' : Changes)
    (h : keysOf c ⊆ keysOf c') : freeCount t c' ≤ freeCount t c := by
  unfold freeCount
  apply List.countP_mono_left
  intro p _ hp
  rw [decide_eq_true_eq] at hp ⊢
  rw [lookupTok_eq_none_iff] at hp ⊢
  intro hc
  exact hp (h hc)

theorem countP_lt_aux {α : Type} (p q : α → Bool)
    (hpq : ∀ a, q a = true → p a = true) :
    ∀ (l : List α) (x : α), x ∈ l → p x = true → q x = false →
      l.countP q < l.countP p := by
  intro l
  induction l with
  | nil => intro x hx; simp at hx
  | cons a l ih =>
    intro x hx hpx hqx
    rw [List.countP_cons, List.countP_cons]
    rcases List.mem_cons.mp hx with rfl | hxl
    · have hqa : q x = false := hqx
      have hpa : p x = true := hpx
      rw [hqa, hpa]
      have hle : l.countP q ≤ l.countP p := List.countP_mono_left (fun a _ ha => hpq a ha)
      simp only [Bool.false_eq_true, if_false, if_true]
      omega
    · have hlt := ih x hxl hpx hqx
      have hcond : (if q a = true then 1 else 0) ≤ (if p a = true then 1 else 0) := by
        by_cases hqa : q a = true
        · rw [if_pos hqa, if_pos (hpq a hqa)]
        · rw [if_neg hqa]
          omega
      omega

theorem freeCount_lt (t : Terrain) (c c' : Changes) (ctr : Position)
    (hsub : keysOf c ⊆ keysOf c') (hv : t.is_valid_position ctr = true)
    (hnot : ctr ∉ keysOf c) (hmem : ctr ∈ keysOf c') :
    freeCount t c' < freeCount t c := by
  unfold freeCount
  apply countP_lt_aux
  · intro a ha
    rw [decide_eq_true_eq] at ha ⊢
    rw [lookupTok_eq_none_iff] at ha ⊢
    intro hc
    exact ha (hsub hc)
  · exact mem_validPositions t ctr hv
  · rw [decide_eq_true_eq, lookupTok_eq_none_iff]
    exact hnot
  · rw [decide_eq_false_iff_not, lookupTok_eq_none_iff]
    intro hc
    exact hc hmem

theorem freeCount_pos (t : Terrain) (c : Changes) (ctr : Position)
    (hv : t.is_valid_position ctr = true) (hnot : lookupTok c ctr = Option.none) :
    1 ≤ freeCount t c := by
  unfold freeCount
  rw [Nat.succ_le, List.countP_pos]
  exact ⟨ctr, mem_validPositions t ctr hv, by rw [decide_eq_true_eq]; exact hnot⟩

/-! ### Fuel sufficiency: the recursion depth is bounded by the measure -/

theorem prop_fuel_of_det_fuel (m : Nat)
    (hD : ∀ fuel t ctr (c : Changes), t.is_valid_position ctr = true →
      lookupTok c ctr = Option.none → freeCount t c ≤ m →
      5 * m + 5 ≤ fuel → detonateAux fuel t ctr c ≠ .outOfFuel) :
    ∀ n fuel t cur d (c : Changes), freeCount t c ≤ m →
      5 * m + n + 5 ≤ fuel → propagate fuel t cur d n c ≠ .outOfFuel := by
  intro n
  induction n with
  | zero =>
    intro fuel t cur d c _ _ h
    cases fuel with
    | zero =>
      rw [propagate_zero, if_pos rfl] at h
      cases h
    | succ f =>
      rw [propagate_succ, if_pos rfl] at h
      cases h
  | succ n ihn =>
    intro fuel t cur d c hfc hfuel h
    cases fuel with
    | zero => omega
    | succ f =>
      rw [propagate_succ, if_neg (Nat.succ_ne_zero n)] at h
      cases hg : t.get_token cur with
      | none => simp only [hg] at h; cases h
      | some tok =>
        simp only [hg] at h
        by_cases hw : tok = Token.WALL
        · rw [if_pos hw] at h
          cases h
        · rw [if_neg hw] at h
          by_cases hb : tok = Token.BOMB ∧ lookupTok c cur = Option.none
          · rw [if_pos hb] at h
            exact hD f t cur c (get_token_some_valid t cur tok hg) hb.2 hfc (by omega) h
          · rw [if_neg hb] at h
            by_cases hv : t.is_valid_position (cur.get_new_position_from d) = true
            · rw [if_pos hv] at h
              have hsub := subset_keysOf_add_flame t c cur
                (if n + 1 = 1 then [d.opposite] else [d, d.opposite])
              have hfc1 : freeCount t (add_flame t c cur
                  (if n + 1 = 1 then [d.opposite] else [d, d.opposite])) ≤ m :=
                le_trans (freeCount_mono t c _ hsub) hfc
              exact ihn f t _ d _ hfc1 (by omega) h
            · rw [if_neg hv] at h
              cases h

theorem onedir_fuel_of_prop_fuel (m : Nat)
    (hP : ∀ n fuel t cur d (c : Changes), freeCount t c ≤ m →
      5 * m + n + 5 ≤ fuel → propagate fuel t cur d n c ≠ .outOfFuel) :
    ∀ fuel t ctr d (c : Changes), freeCount t c ≤ m →
      5 * m + 9 ≤ fuel → oneDir fuel t ctr d c ≠ .outOfFuel := by
  intro fuel t ctr d c hfc hfuel h
  cases fuel with
  | zero => omega
  | succ f =>
    rw [oneDir_succ] at h
    by_cases hv : t.is_valid_position (ctr.get_new_position_from d) = true
    · rw [if_pos hv] at h
      have hBS : BOMB_SIZE = 3 := rfl
      exact hP BOMB_SIZE f t _ d c hfc (by omega) h
    · rw [if_neg hv] at h
      cases h

theorem det_fuel_of_onedir_fuel (m : Nat)
    (hO : ∀ fuel t ctr d (c : Changes), freeCount t c ≤ m →
      5 * m + 9 ≤ fuel → oneDir fuel t ctr d c ≠ .outOfFuel) :
    ∀ fuel t ctr (c : Changes), t.is_valid_position ctr = true →
      lookupTok c ctr = Option.none → freeCount t c ≤ m + 1 →
      5 * (m + 1) + 5 ≤ fuel → detonateAux fuel t ctr c ≠ .outOfFuel := by
  intro fuel t ctr c hv hlk hfc hfuel h
  cases fuel with
  | zero => omega
  | succ f =>
    rw [detonateAux_succ] at h
    have hnotmem : ctr ∉ keysOf c := (lookupTok_eq_none_iff c ctr).mp hlk
    have hsub := subset_keysOf_add_flame t c ctr
      [Direction.up, Direction.down, Direction.left, Direction.right]
    have hmem := mem_keysOf_add_flame t c ctr
      [Direction.up, Direction.down, Direction.left, Direction.right] hv
    have hfc0 : freeCount t (add_flame t c ctr
        [Direction.up, Direction.down, Direction.left, Direction.right]) ≤ m := by
      have := freeCount_lt t c _ ctr hsub hv hnotmem hmem
      omega
    cases h1 : oneDir f t ctr Direction.up
        (add_flame t c ctr
          [Direction.up, Direction.down, Direction.left, Direction.right]) with
    | err => simp only [h1] at h; cases h
    | outOfFuel => exact hO f t ctr Direction.up _ hfc0 (by omega) h1
    | ok c1 =>
      simp only [h1] at h
      have hfc1 : freeCount t c1 ≤ m :=
        le_trans (freeCount_mono t _ c1 ((keys_invariants f).2.2 t ctr Direction.up _ c1 h1).1) hfc0
      cases h2 : oneDir f t ctr Direction.down c1 with
      | err => simp only [h2] at h; cases h
      | outOfFuel => exact hO f t ctr Direction.down c1 hfc1 (by omega) h2
      | ok c2 =>
        simp only [h2] at h
        have hfc2 : freeCount t c2 ≤ m :=
          le_trans (freeCount_mono t c1 c2 ((keys_invariants f).2.2 t ctr Direction.down c1 c2 h2).1) hfc1
        cases h3 : oneDir f t ctr Direction.left c2 with
        | err => simp only [h3] at h; cases h
        | outOfFuel => exact hO f t ctr Direction.left c2 hfc2 (by omega) h3
        | ok c3 =>
          simp only [h3] at h
          have hfc3 : freeCount t c3 ≤ m :=
            le_trans (freeCount_mono t c2 c3 ((keys_invariants f).2.2 t ctr Direction.left c2 c3 h3).1) hfc2
          exact hO f t ctr Direction.right c3 hfc3 (by omega) h

theorem fuel_sufficient :
    ∀ m : Nat,
      (∀ fuel t ctr (c : Changes), t.is_valid_position ctr = true →
        lookupTok c ctr = Option.none → freeCount t c ≤ m →
        5 * m + 5 ≤ fuel → detonateAux fuel t ctr c ≠ .outOfFuel) := by
  intro m
  induction m with
  | zero =>
    intro fuel t ctr c hv hlk hfc _
    have h1 := freeCount_pos t c ctr hv hlk
    omega
  | succ m ih =>
    have hP := prop_fuel_of_det_fuel m ih
    have hO := onedir_fuel_of_prop_fuel m hP
    exact det_fuel_of_onedir_fuel m hO

/-! ### Algebra of repeated merges -/

theorem changeMask_setTok_flame (c : Changes) (p : Position) (mk : Nat)
    (h : mk < 16) : changeMask (setTok c p (flameTokOf mk)) p = mk := by
  unfold changeMask
  rw [lookupTok_setTok_self]
  exact revMask_flameTokOf mk h

theorem changeMask_or_bits_lt (c : Changes) (p : Position) (ds : List Direction) :
    changeMask c p ||| bitsOf ds < 16 := by
  have h16 : (16 : Nat) = 2 ^ 4 := rfl
  rw [h16]
  exact Nat.or_lt_two_pow (h16 ▸ changeMask_lt_sixteen c p) (h16 ▸ bitsOf_lt_sixteen ds)

theorem lookup_agree_of_checks (a b : Changes)
    (h1 : ∀ p ∈ keysOf a, lookupTok a p = lookupTok b p)
    (h2 : ∀ p ∈ keysOf b, lookupTok b p = lookupTok a p) :
    ∀ p, lookupTok a p = lookupTok b p := by
  intro p
  by_cases ha : p ∈ keysOf a
  · exact h1 p ha
  · by_cases hb : p ∈ keysOf b
    · exact (h2 p hb).symm
    · rw [(lookupTok_eq_none_iff a p).mpr ha, (lookupTok_eq_none_iff b p).mpr hb]

/-! ### Claim theorems -/

/-- C1: For a bomb at the center of a sufficiently large all-empty grid
(a 9 × 9 grid with the bomb at (4, 4)), `detonate` returns a change-set of
exactly 13 cells: the center carries the full 4-direction mask 15 ('┼');
in each cardinal direction the two intermediate cells carry both the
incoming and the outgoing direction bits (mask 12 = UP|DOWN vertically,
mask 3 = LEFT|RIGHT horizontally), and the tip, three steps from the
bomb, carries the single direction bit continuing the line outward
(mask 8 = DOWN at the top tip '╷', 4 = UP at the bottom tip '╵',
2 = RIGHT at the left tip '╶', 1 = LEFT at the right tip '╴'). -/
theorem center_blast_thirteen_cells :
    detonate 100 centerBombGrid ⟨4, 4⟩ = .ok
      [(⟨4, 4⟩, flameTokOf 15),
       (⟨4, 3⟩, flameTokOf 12), (⟨4, 2⟩, flameTokOf 12), (⟨4, 1⟩, flameTokOf 8),
       (⟨4, 5⟩, flameTokOf 12), (⟨4, 6⟩, flameTokOf 12), (⟨4, 7⟩, flameTokOf 4),
       (⟨3, 4⟩, flameTokOf 3), (⟨2, 4⟩, flameTokOf 3), (⟨1, 4⟩, flameTokOf 2),
       (⟨5, 4⟩, flameTokOf 3), (⟨6, 4⟩, flameTokOf 3), (⟨7, 4⟩, flameTokOf 1)] := by
  decide

/-- C2: Chain reactions merge into a single change-set.  (i) In general,
when a propagation step reaches a bomb cell not yet recorded in the
change-set, it recursively detonates that bomb into the same change-set
and stops propagating in that direction.  (ii)–(iii) On the concrete
7 × 7 grid with bombs at (1, 3) and (4, 3) (the first bomb's 3-cell
radius reaches the second), detonating either bomb yields the union of
both bombs' effects in one change-set, and (iv) the two change-sets are
pointwise equal.  (v) The first bomb's own cell keeps the full mask 15
('┼'): the second blast's later, narrower tip contribution (bit RIGHT)
is OR-merged into it, not overwritten over it. -/
theorem chain_reaction_union :
    (∀ (f : Nat) (t : Terrain) (cur : Position) (d : Direction) (n : Nat) (c : Changes),
      n ≠ 0 → t.get_token cur = some Token.BOMB → lookupTok c cur = Option.none →
      propagate (f + 1) t cur d n c = detonateAux f t cur c) ∧
    detonate 100 twoBombGrid ⟨1, 3⟩ = .ok twoBombChangesA ∧
    detonate 100 twoBombGrid ⟨4, 3⟩ = .ok twoBombChangesB ∧
    (∀ p, lookupTok twoBombChangesA p = lookupTok twoBombChangesB p) ∧
    lookupTok twoBombChangesA ⟨1, 3⟩ = some (flameTokOf 15) := by
  refine ⟨?_, by decide, by decide, ?_, by decide⟩
  · intro f t cur d n c hn htok hlk
    rw [propagate_succ, if_neg hn]
    simp only [htok]
    rw [if_neg (by decide : ¬ Token.BOMB = Token.WALL)]
    rw [if_pos (And.intro trivial hlk)]
  · exact lookup_agree_of_checks _ _ (by decide) (by decide)

/-- Witness for C2's general clause (i): in `twoBombGrid` the rightward
propagation of the bomb at (1, 3) reaches the unrecorded bomb cell
(4, 3) and delegates to that bomb's detonation. -/
theorem chain_reaction_union_witness :
    (3 ≠ 0) ∧ twoBombGrid.get_token ⟨4, 3⟩ = some Token.BOMB ∧
    lookupTok [] ⟨4, 3⟩ = Option.none ∧
    propagate 50 twoBombGrid ⟨4, 3⟩ Direction.right 3 [] =
      detonateAux 49 twoBombGrid ⟨4, 3⟩ [] :=
  ⟨by decide, by decide, rfl,
    chain_reaction_union.1 49 twoBombGrid ⟨4, 3⟩ Direction.right 3 []
      (by decide) (by decide) rfl⟩

/-- C3 counterexample: the claim as stated is false.  In `chainWallGrid`
the bomb at (0, 0) propagates rightward into the wall at (1, 0) within
its 3-cell radius, and the change-set maps the wall to empty — but the
change-set also contains a flame at (3, 0), a cell beyond the wall in
that same rightward direction, deposited by the chain-reacted bomb at
(3, 3) (reached via the bomb at (0, 3)). -/
theorem wall_stop_cex :
    detonate 100 chainWallGrid ⟨0, 0⟩ = .ok chainWallChanges ∧
    chainWallGrid.get_token ⟨1, 0⟩ = some Token.WALL ∧
    lookupTok chainWallChanges ⟨1, 0⟩ = some Token.EMPTY ∧
    lookupTok chainWallChanges ⟨3, 0⟩ = some (flameTokOf 8) := by
  decide

/-- C3 amended: (i) in general, the propagation step that reaches a wall
cell within the radius records exactly that wall cell as empty (no flame
on the wall itself) and adds nothing else in that direction — only
chain-reacted bombs elsewhere can touch cells beyond the wall; (ii) on
the concrete single-bomb grid `wallGrid` (bomb (4, 4), wall (5, 4)) the
full change-set clears the wall, has no cell beyond it in that
direction, and the other three directions propagate normally. -/
theorem wall_stop_amended :
    (∀ (f : Nat) (t : Terrain) (cur : Position) (d : Direction) (n : Nat) (c : Changes),
      n ≠ 0 → t.get_token cur = some Token.WALL →
      propagate (f + 1) t cur d n c = .ok (setTok c cur Token.EMPTY)) ∧
    detonate 100 wallGrid ⟨4, 4⟩ = .ok
      [(⟨4, 4⟩, flameTokOf 15),
       (⟨4, 3⟩, flameTokOf 12), (⟨4, 2⟩, flameTokOf 12), (⟨4, 1⟩, flameTokOf 8),
       (⟨4, 5⟩, flameTokOf 12), (⟨4, 6⟩, flameTokOf 12), (⟨4, 7⟩, flameTokOf 4),
       (⟨3, 4⟩, flameTokOf 3), (⟨2, 4⟩, flameTokOf 3), (⟨1, 4⟩, flameTokOf 2),
       (⟨5, 4⟩, Token.EMPTY)] := by
  refine ⟨?_, by decide⟩
  intro f t cur d n c hn htok
  rw [propagate_succ, if_neg hn]
  simp only [htok]
  rw [if_pos trivial]

/-- Witness for C3's amended general clause: the wall cell (5, 4) of
`wallGrid`, reached with 3 remaining steps, is recorded as cleared and
propagation stops. -/
theorem wall_stop_amended_witness :
    (3 ≠ 0) ∧ wallGrid.get_token ⟨5, 4⟩ = some Token.WALL ∧
    propagate 20 wallGrid ⟨5, 4⟩ Direction.right 3 [] =
      .ok (setTok [] ⟨5, 4⟩ Token.EMPTY) :=
  ⟨by decide, by decide,
    wall_stop_amended.1 19 wallGrid ⟨5, 4⟩ Direction.right 3 [] (by decide) (by decide)⟩

/-- C4: flame-mask merging into a change-set cell is (i) idempotent,
(ii) commutative, and (iii) on a valid position the stored glyph is the
one of the union of the already-recorded mask and the new direction
bits — a later contribution ORs into the cell, it never replaces a wider
mask with a narrower one. -/
theorem flame_merge_algebra :
    (∀ (t : Terrain) (c : Changes) (p : Position) (ds : List Direction),
      add_flame t (add_flame t c p ds) p ds = add_flame t c p ds) ∧
    (∀ (t : Terrain) (c : Changes) (p : Position) (ds1 ds2 : List Direction),
      add_flame t (add_flame t c p ds1) p ds2 = add_flame t (add_flame t c p ds2) p ds1) ∧
    (∀ (t : Terrain) (c : Changes) (p : Position) (ds : List Direction),
      t.is_valid_position p = true →
      lookupTok (add_flame t c p ds) p =
        some (flameTokOf (changeMask c p ||| bitsOf ds))) := by
  refine ⟨?_, ?_, ?_⟩
  · intro t c p ds
    by_cases h : t.is_valid_position p = true
    · rw [add_flame_of_valid t c p ds h, add_flame_of_valid t _ p ds h,
        changeMask_setTok_flame _ _ _ (changeMask_or_bits_lt c p ds),
        Nat.or_assoc, Nat.or_self, setTok_setTok]
    · rw [add_flame_of_invalid t c p ds h, add_flame_of_invalid t c p ds h]
  · intro t c p ds1 ds2
    by_cases h : t.is_valid_position p = true
    · rw [add_flame_of_valid t c p ds1 h, add_flame_of_valid t c p ds2 h,
        add_flame_of_valid t _ p ds2 h, add_flame_of_valid t _ p ds1 h,
        changeMask_setTok_flame _ _ _ (changeMask_or_bits_lt c p ds1),
        changeMask_setTok_flame _ _ _ (changeMask_or_bits_lt c p ds2),
        setTok_setTok, setTok_setTok,
        Nat.or_assoc, Nat.or_assoc, Nat.or_comm (bitsOf ds1) (bitsOf ds2)]
    · rw [add_flame_of_invalid t c p ds1 h, add_flame_of_invalid t c p ds2 h,
        add_flame_of_invalid t c p ds1 h]
  · intro t c p ds h
    rw [add_flame_of_valid t c p ds h, lookupTok_setTok_self]

/-- Witness for C4 at a concrete input: merging UP then LEFT into a cell
that already holds the horizontal mask 3 yields the glyph of 3 ||| 5. -/
theorem flame_merge_algebra_witness :
    tinyGrid.is_valid_position ⟨0, 0⟩ = true ∧
    lookupTok (add_flame tinyGrid [(⟨0, 0⟩, flameTokOf 3)] ⟨0, 0⟩
        [Direction.up, Direction.left]) ⟨0, 0⟩ =
      some (flameTokOf (changeMask [(⟨0, 0⟩, flameTokOf 3)] ⟨0, 0⟩ |||
        bitsOf [Direction.up, Direction.left])) :=
  ⟨by decide,
    flame_merge_algebra.2.2 tinyGrid [(⟨0, 0⟩, flameTokOf 3)] ⟨0, 0⟩
      [Direction.up, Direction.left] (by decide)⟩

/-- C5 counterexample: the claim as stated is false.  `detonate` reads
the starting cell through `Terrain.get_token` without first checking
validity, so an out-of-bounds starting position raises the grid's
out-of-bounds error (modelled as the `err` result): position (2, 0) is
outside the 2 × 2 grid. -/
theorem oob_start_error_cex : detonate 10 tinyGrid ⟨2, 0⟩ = .err := by decide

/-- C5 amended: for every well-formed grid and every starting position
inside the grid, `detonate` never fails with an out-of-bounds error:
within propagation, validity is always checked before reading and
invalidity stops propagation; only the initial bomb-marker read of an
out-of-bounds starting position can raise. -/
theorem valid_start_no_error (fuel : Nat) (t : Terrain) (pos : Position)
    (hWF : t.WF) (hv : t.is_valid_position pos = true) :
    detonate fuel t pos ≠ .err := by
  intro h
  unfold detonate at h
  obtain ⟨tok, htok⟩ := get_token_isSome t pos hWF hv
  simp only [htok] at h
  by_cases hb : tok = Token.BOMB
  · rw [if_pos hb] at h
    exact (no_error fuel).2.1 t pos [] hWF h
  · rw [if_neg hb] at h
    cases h

/-- Witness for C5's amended claim on a concrete grid and position. -/
theorem valid_start_no_error_witness :
    tinyGrid.WF ∧ tinyGrid.is_valid_position ⟨0, 0⟩ = true ∧
    detonate 10 tinyGrid ⟨0, 0⟩ ≠ .err :=
  ⟨by rfl, by decide, valid_start_no_error 10 tinyGrid ⟨0, 0⟩ (by rfl) (by decide)⟩

/-- C6 counterexample: the claim as stated is false.  In the 3 × 3 grid
with the bomb at its center, the cell (2, 1) is in bounds but its next
position (3, 1) in the rightward direction is out of bounds; the claim
says (2, 1) then receives no entry from that direction's propagation,
yet the change-set maps (2, 1) to the two-bit glyph '─' (mask 3). -/
theorem boundary_stop_cex :
    detonate 100 smallGrid ⟨1, 1⟩ = .ok
      [(⟨1, 1⟩, flameTokOf 15), (⟨1, 0⟩, flameTokOf 12), (⟨1, 2⟩, flameTokOf 12),
       (⟨0, 1⟩, flameTokOf 3), (⟨2, 1⟩, flameTokOf 3)] ∧
    smallGrid.is_valid_position (Position.get_new_position_from ⟨2, 1⟩ Direction.right) = false ∧
    lookupTok [(⟨1, 1⟩, flameTokOf 15), (⟨1, 0⟩, flameTokOf 12), (⟨1, 2⟩, flameTokOf 12),
       (⟨0, 1⟩, flameTokOf 3), (⟨2, 1⟩, flameTokOf 3)] ⟨2, 1⟩ = some (flameTokOf 3) := by
  decide

/-- C6 amended: when the next position one step further is out of grid
bounds, propagation stops immediately — but only after marking the
current cell: the current in-bounds cell still receives its flame entry
for this step (both direction bits when more than one step remains, the
single outward bit at the tip), and no cell beyond the boundary is
entered. -/
theorem boundary_stop_amended (f : Nat) (t : Terrain) (cur : Position) (d : Direction)
    (n : Nat) (c : Changes) (tok : Token) (hn : n ≠ 0)
    (htok : t.get_token cur = some tok) (hw : tok ≠ Token.WALL)
    (hb : ¬ (tok = Token.BOMB ∧ lookupTok c cur = Option.none))
    (hv : t.is_valid_position (cur.get_new_position_from d) = false) :
    propagate (f + 1) t cur d n c =
      .ok (add_flame t c cur (if n = 1 then [d.opposite] else [d, d.opposite])) := by
  rw [propagate_succ, if_neg hn]
  simp only [htok]
  rw [if_neg hw, if_neg hb, if_neg (by simp [hv])]

/-- Witness for C6's amended claim: the border cell (2, 1) of the 3 × 3
grid is marked with both direction bits even though the next rightward
position is off-grid. -/
theorem boundary_stop_amended_witness :
    (3 ≠ 0) ∧ smallGrid.get_token ⟨2, 1⟩ = some Token.EMPTY ∧
    (Token.EMPTY ≠ Token.WALL) ∧
    ¬ (Token.EMPTY = Token.BOMB ∧ lookupTok [] ⟨2, 1⟩ = Option.none) ∧
    smallGrid.is_valid_position (Position.get_new_position_from ⟨2, 1⟩ Direction.right) = false ∧
    propagate 20 smallGrid ⟨2, 1⟩ Direction.right 3 [] =
      .ok (add_flame smallGrid [] ⟨2, 1⟩ [Direction.right, Direction.left]) :=
  ⟨by decide, by decide, by decide, by decide, by decide,
    boundary_stop_amended 19 smallGrid ⟨2, 1⟩ Direction.right 3 [] Token.EMPTY
      (by decide) (by decide) (by decide) (by decide) (by decide)⟩

/-- C7: for every grid and every position whose cell is readable and
does not hold the bomb marker, `detonate` returns the empty change-set —
a silent no-op, not an error. -/
theorem nonbomb_noop (fuel : Nat) (t : Terrain) (pos : Position) (tok : Token)
    (htok : t.get_token pos = some tok) (hb : tok ≠ Token.BOMB) :
    detonate fuel t pos = .ok [] := by
  unfold detonate
  simp only [htok]
  rw [if_neg hb]

/-- Witness for C7 on a concrete empty cell. -/
theorem nonbomb_noop_witness :
    tinyGrid.get_token ⟨1, 1⟩ = some Token.EMPTY ∧ (Token.EMPTY ≠ Token.BOMB) ∧
    detonate 10 tinyGrid ⟨1, 1⟩ = .ok [] :=
  ⟨by decide, by decide, nonbomb_noop 10 tinyGrid ⟨1, 1⟩ Token.EMPTY (by decide) (by decide)⟩

/-- C8: round-trip.  Every change-set returned by `detonate` on a
well-formed grid has only valid positions as keys, so the batch update
succeeds, and re-reading each changed position afterwards yields exactly
the marker stored for it in the change-set. -/
theorem detonate_update_roundtrip (fuel : Nat) (t : Terrain) (pos : Position)
    (cs : Changes) (hWF : t.WF) (hdet : detonate fuel t pos = .ok cs) :
    ∃ t', t.update cs = some t' ∧
      ∀ p tok, (p, tok) ∈ cs → t'.get_token p = some tok := by
  have hkeys : (∀ p ∈ keysOf cs, t.is_valid_position p = true) ∧ (keysOf cs).Nodup := by
    unfold detonate at hdet
    cases hg : t.get_token pos with
    | none => simp only [hg] at hdet; cases hdet
    | some tok =>
      simp only [hg] at hdet
      by_cases hb : tok = Token.BOMB
      · rw [if_pos hb] at hdet
        obtain ⟨hsub, hval, hnd⟩ := (keys_invariants fuel).2.1 t pos [] cs hdet
        refine ⟨hval ?_, hnd ?_⟩
        · intro p hp
          simp [keysOf] at hp
        · simp [keysOf]
      · rw [if_neg hb] at hdet
        injection hdet with h
        subst h
        refine ⟨?_, ?_⟩
        · intro p hp
          simp [keysOf] at hp
        · simp [keysOf]
  obtain ⟨hval, hnd⟩ := hkeys
  obtain ⟨t', hup, hWF', hw, hh, hread⟩ := update_exists cs t hWF hval
  exact ⟨t', hup, fun p tok hm => update_reads cs t t' hWF hval hnd hup p tok hm⟩

/-- Witness for C8 on the 3 × 3 single-bomb grid. -/
theorem detonate_update_roundtrip_witness :
    smallGrid.WF ∧
    detonate 100 smallGrid ⟨1, 1⟩ = .ok
      [(⟨1, 1⟩, flameTokOf 15), (⟨1, 0⟩, flameTokOf 12), (⟨1, 2⟩, flameTokOf 12),
       (⟨0, 1⟩, flameTokOf 3), (⟨2, 1⟩, flameTokOf 3)] ∧
    (∃ t', smallGrid.update
        [(⟨1, 1⟩, flameTokOf 15), (⟨1, 0⟩, flameTokOf 12), (⟨1, 2⟩, flameTokOf 12),
         (⟨0, 1⟩, flameTokOf 3), (⟨2, 1⟩, flameTokOf 3)] = some t' ∧
      ∀ p tok, (p, tok) ∈
        [((⟨1, 1⟩ : Position), flameTokOf 15), (⟨1, 0⟩, flameTokOf 12), (⟨1, 2⟩, flameTokOf 12),
         (⟨0, 1⟩, flameTokOf 3), (⟨2, 1⟩, flameTokOf 3)] → t'.get_token p = some tok) :=
  ⟨by rfl, by decide,
    detonate_update_roundtrip 100 smallGrid ⟨1, 1⟩ _ (by rfl) (by decide)⟩

/-- C9: `detonate` terminates on every finite grid and every position.
The fuel parameter models the recursion depth; with fuel
5·(height·width) + 5 the engine never exhausts it: each directional
propagation takes at most BOMB_SIZE = 3 steps between chain reactions,
and every chained detonation first records its own (previously
unrecorded) bomb cell, so the chain-reaction depth is bounded by the
number of valid cells of the grid. -/
theorem detonate_terminates (t : Terrain) (pos : Position) :
    detonate (5 * (t.height * t.width) + 5) t pos ≠ .outOfFuel := by
  intro h
  unfold detonate at h
  cases hg : t.get_token pos with
  | none => simp only [hg] at h; cases h
  | some tok =>
    simp only [hg] at h
    by_cases hb : tok = Token.BOMB
    · rw [if_pos hb] at h
      have hv := get_token_some_valid t pos tok hg
      have hfc : freeCount t [] ≤ t.height * t.width := freeCount_le t []
      exact fuel_sufficient (t.height * t.width) _ t pos [] hv rfl hfc (by omega) h
    · rw [if_neg hb] at h
      cases h

/-- C10: a cell whose terrain marker is a leftover flame glyph is
treated exactly like an open cell: (i) in general, `detonate` returns
the same change-set on a grid and on the grid with every flame glyph
scrubbed to empty, so the pre-existing glyph's mask is never merged in;
(ii) concretely, on `leftoverFlameGrid` the cell (1, 2), whose terrain
still shows '─' (mask 3), gets the entry '│' (mask 12 = UP|DOWN) built
solely from this call's own contributions, replacing the old glyph when
the change-set is applied. -/
theorem flame_cells_treated_as_open :
    (∀ (fuel : Nat) (t : Terrain) (pos : Position),
      detonate fuel (scrubFlames t) pos = detonate fuel t pos) ∧
    detonate 100 leftoverFlameGrid ⟨1, 3⟩ = .ok
      [(⟨1, 3⟩, flameTokOf 15), (⟨1, 2⟩, flameTokOf 12), (⟨1, 1⟩, flameTokOf 12),
       (⟨1, 0⟩, flameTokOf 8), (⟨1, 4⟩, flameTokOf 12), (⟨1, 5⟩, flameTokOf 12),
       (⟨1, 6⟩, flameTokOf 4), (⟨0, 3⟩, flameTokOf 3), (⟨2, 3⟩, flameTokOf 3)] := by
  refine ⟨?_, by decide⟩
  intro fuel t pos
  unfold detonate
  cases hg : t.get_token pos with
  | none =>
    have hg' : (scrubFlames t).get_token pos = Option.none := by
      rw [scrub_get_token, hg]
      rfl
    simp only [hg, hg']
  | some tok =>
    have hg' : (scrubFlames t).get_token pos = some (scrubTok tok) := by
      rw [scrub_get_token, hg]
      rfl
    simp only [hg, hg']
    by_cases hb : tok = Token.BOMB
    · rw [if_pos hb, if_pos ((scrubTok_eq_bomb_iff tok).mpr hb)]
      exact (scrub_invariance fuel).2.1 t pos []
    · rw [if_neg hb, if_neg (fun h => hb ((scrubTok_eq_bomb_iff tok).mp h))]

/-- Witness for C9 on the concrete 3 × 3 single-bomb grid: fuel
5·(3·3) + 5 = 50 suffices. -/
theorem detonate_terminates_witness :
    detonate 50 smallGrid ⟨1, 1⟩ ≠ DetResult.outOfFuel :=
  detonate_terminates smallGrid ⟨1, 1⟩
